import Mathlib

/-!
Verification of the color-conversion and recoloring core of `image-recolor`
(src/App.js), shallowly embedded over exact rationals.

The JavaScript arithmetic on doubles is modelled over `ℚ`; `Math.pow` (used
only by the CIELAB converters, with fractional exponents) is kept as an
explicit function parameter `jpow`, so every statement about the CIELAB code
path is quantified over its interpretation.  Byte stores into the
`Uint8ClampedArray` image buffer clamp to `[0, 255]` and round half to even;
`Math.round` rounds half up.
-/

namespace ImageRecolor

/-- Body of `rgbToHsl` from App.js after the three normalizing divisions
(the JS function reassigns `r /= 255` etc. and then runs this block). -/
def rgbToHslCore (r g b : ℚ) : ℚ × ℚ × ℚ :=
  let mx := max r (max g b)
  let mn := min r (min g b)
  let l := (mx + mn) / 2
  if mx = mn then (0, 0, l)
  else
    let d := mx - mn
    let s := if l > 0.5 then d / (2 - mx - mn) else d / (mx + mn)
    let h :=
      if mx = r then (g - b) / d + (if g < b then 6 else 0)
      else if mx = g then (b - r) / d + 2
      else (r - g) / d + 4
    (h / 6, s, l)

/-- `rgbToHsl` from App.js: channels in `[0,255]` to `(h, s, l)` in `[0,1]`. -/
def rgbToHsl (r g b : ℚ) : ℚ × ℚ × ℚ :=
  rgbToHslCore (r / 255) (g / 255) (b / 255)

/-- The `hue2rgb` helper inside `hslToRgb` in App.js. -/
def hue2rgb (p q t : ℚ) : ℚ :=
  let t := if t < 0 then t + 1 else t
  let t := if t > 1 then t - 1 else t
  if t < 1 / 6 then p + (q - p) * 6 * t
  else if t < 1 / 2 then q
  else if t < 2 / 3 then p + (q - p) * (2 / 3 - t) * 6
  else p

/-- `hslToRgb` from App.js: `(h, s, l)` in `[0,1]` to channels in `[0,255]`
(unrounded, unclamped). -/
def hslToRgb (h s l : ℚ) : ℚ × ℚ × ℚ :=
  if s = 0 then (l * 255, l * 255, l * 255)
  else
    let q := if l < 0.5 then l * (1 + s) else l + s - l * s
    let p := 2 * l - q
    (hue2rgb p q (h + 1 / 3) * 255, hue2rgb p q h * 255, hue2rgb p q (h - 1 / 3) * 255)

/-- `rgbToLab` from App.js.  `jpow` stands for `Math.pow`. -/
def rgbToLab (jpow : ℚ → ℚ → ℚ) (r g b : ℚ) : ℚ × ℚ × ℚ :=
  let r := r / 255
  let g := g / 255
  let b := b / 255
  let r := if r > 0.04045 then jpow ((r + 0.055) / 1.055) 2.4 else r / 12.92
  let g := if g > 0.04045 then jpow ((g + 0.055) / 1.055) 2.4 else g / 12.92
  let b := if b > 0.04045 then jpow ((b + 0.055) / 1.055) 2.4 else b / 12.92
  let x := (r * 0.4124 + g * 0.3576 + b * 0.1805) / 0.95047
  let y := (r * 0.2126 + g * 0.7152 + b * 0.0722) / 1.00000
  let z := (r * 0.0193 + g * 0.1192 + b * 0.9505) / 1.08883
  let x := if x > 0.008856 then jpow x (1 / 3) else 7.787 * x + 16 / 116
  let y := if y > 0.008856 then jpow y (1 / 3) else 7.787 * y + 16 / 116
  let z := if z > 0.008856 then jpow z (1 / 3) else 7.787 * z + 16 / 116
  (116 * y - 16, 500 * (x - y), 200 * (y - z))

/-- `Math.round`: round to nearest, ties toward `+∞`. -/
def jsRound (x : ℚ) : ℤ := ⌊x + 1 / 2⌋

/-- `labToRgb` from App.js: rounds each channel to the nearest integer and
clamps to `[0, 255]`.  `jpow` stands for `Math.pow`. -/
def labToRgb (jpow : ℚ → ℚ → ℚ) (cl ca cb : ℚ) : ℤ × ℤ × ℤ :=
  let y := (cl + 16) / 116
  let x := ca / 500 + y
  let z := y - cb / 200
  let x := 0.95047 * (if x * x * x > 0.008856 then x * x * x else (x - 16 / 116) / 7.787)
  let y := 1.00000 * (if y * y * y > 0.008856 then y * y * y else (y - 16 / 116) / 7.787)
  let z := 1.08883 * (if z * z * z > 0.008856 then z * z * z else (z - 16 / 116) / 7.787)
  let r := x * 3.2406 + y * (-1.5372) + z * (-0.4986)
  let g := x * (-0.9689) + y * 1.8758 + z * 0.0415
  let b := x * 0.0557 + y * (-0.2040) + z * 1.0570
  let r := if r > 0.0031308 then 1.055 * jpow r (1 / 2.4) - 0.055 else 12.92 * r
  let g := if g > 0.0031308 then 1.055 * jpow g (1 / 2.4) - 0.055 else 12.92 * g
  let b := if b > 0.0031308 then 1.055 * jpow b (1 / 2.4) - 0.055 else 12.92 * b
  (jsRound (max 0 (min 1 r) * 255),
   jsRound (max 0 (min 1 g) * 255),
   jsRound (max 0 (min 1 b) * 255))

/-- `colorCorrection` from App.js: the per-image delta in the active space. -/
def colorCorrection (jpow : ℚ → ℚ → ℚ) (selectedColor targetColor : ℚ × ℚ × ℚ)
    (colorSpace : String) : ℚ × ℚ × ℚ :=
  let cielab := colorSpace == "cielab"
  let hslStart := if cielab then rgbToLab jpow selectedColor.1 selectedColor.2.1 selectedColor.2.2
                  else rgbToHsl selectedColor.1 selectedColor.2.1 selectedColor.2.2
  let hslEnd := if cielab then rgbToLab jpow targetColor.1 targetColor.2.1 targetColor.2.2
                else rgbToHsl targetColor.1 targetColor.2.1 targetColor.2.2
  (hslEnd.1 - hslStart.1, hslEnd.2.1 - hslStart.2.1, hslEnd.2.2 - hslStart.2.2)

/-- `applyCorrection` from App.js: convert one pixel into the active space,
add the delta, convert back (the CIELAB inverse yields integral channels). -/
def applyCorrection (jpow : ℚ → ℚ → ℚ) (r g b : ℚ) (correction : ℚ × ℚ × ℚ)
    (colorSpace : String) : ℚ × ℚ × ℚ :=
  let cielab := colorSpace == "cielab"
  let color := if cielab then rgbToLab jpow r g b else rgbToHsl r g b
  let corrected := (color.1 + correction.1, color.2.1 + correction.2.1,
                    color.2.2 + correction.2.2)
  if cielab then
    let t := labToRgb jpow corrected.1 corrected.2.1 corrected.2.2
    ((t.1 : ℚ), (t.2.1 : ℚ), (t.2.2 : ℚ))
  else hslToRgb corrected.1 corrected.2.1 corrected.2.2

/-- Storing a number into a `Uint8ClampedArray` slot: clamp to `[0,255]`,
round to nearest, ties to even. -/
def toByte (x : ℚ) : ℕ :=
  if x ≤ 0 then 0
  else if 255 ≤ x then 255
  else
    let f := ⌊x⌋
    (if x - f < 1 / 2 then f
     else if 1 / 2 < x - f then f + 1
     else if 2 ∣ f then f else f + 1).toNat

/-- The pixel loop of `drawOutput` in App.js over an RGBA-interleaved byte
buffer: skip a pixel when `sum < 20` or `sum > 256*3 - 20`, otherwise
overwrite R, G, B with the corrected values; alpha is never written. -/
def correctPixels (jpow : ℚ → ℚ → ℚ) (correction : ℚ × ℚ × ℚ)
    (colorSpace : String) : List ℕ → List ℕ
  | r :: g :: b :: a :: rest =>
      (if r + g + b < 20 ∨ r + g + b > 256 * 3 - 20 then [r, g, b, a]
       else
         let c := applyCorrection jpow (r : ℚ) (g : ℚ) (b : ℚ) correction colorSpace
         [toByte c.1, toByte c.2.1, toByte c.2.2, a]) ++
      correctPixels jpow correction colorSpace rest
  | [] => []
  | [x] => [x]
  | [x, y] => [x, y]
  | [x, y, z] => [x, y, z]

/-- `drawOutput` from App.js, restricted to its pixel-buffer effect: compute
the delta once, then run the pixel loop. -/
def drawOutput (jpow : ℚ → ℚ → ℚ) (selectedColor targetColor : ℚ × ℚ × ℚ)
    (colorSpace : String) (data : List ℕ) : List ℕ :=
  correctPixels jpow (colorCorrection jpow selectedColor targetColor colorSpace)
    colorSpace data

/-! ### Evaluation lemmas for `hue2rgb` -/

/-- On `[0, 1]` the two wrapping steps of `hue2rgb` are inert, and the value
is given by the four-way segment formula (stated with inclusive bounds: at
each breakpoint the adjacent formulas agree). -/
theorem hue2rgb_eval (p q t : ℚ) (h0 : 0 ≤ t) (h1 : t ≤ 1) :
    hue2rgb p q t =
      if t ≤ 1 / 6 then p + (q - p) * 6 * t
      else if t ≤ 1 / 2 then q
      else if t ≤ 2 / 3 then p + (q - p) * (2 / 3 - t) * 6
      else p := by
  simp only [hue2rgb]
  rw [if_neg (not_lt.2 h0), if_neg (not_lt.2 h1)]
  by_cases c1 : t < 1 / 6
  · rw [if_pos c1, if_pos (le_of_lt c1)]
  rw [if_neg c1]
  by_cases c1' : t ≤ 1 / 6
  · have ht : t = 1 / 6 := le_antisymm c1' (not_lt.1 c1)
    rw [if_pos c1', if_pos (by rw [ht]; norm_num : t < 1 / 2), ht]
    ring
  rw [if_neg c1']
  by_cases c2 : t < 1 / 2
  · rw [if_pos c2, if_pos (le_of_lt c2)]
  rw [if_neg c2]
  by_cases c2' : t ≤ 1 / 2
  · have ht : t = 1 / 2 := le_antisymm c2' (not_lt.1 c2)
    rw [if_pos c2', if_pos (by rw [ht]; norm_num : t < 2 / 3), ht]
    ring
  rw [if_neg c2']
  by_cases c3 : t < 2 / 3
  · rw [if_pos c3, if_pos (le_of_lt c3)]
  rw [if_neg c3]
  by_cases c3' : t ≤ 2 / 3
  · have ht : t = 2 / 3 := le_antisymm c3' (not_lt.1 c3)
    rw [if_pos c3', ht]
    ring
  rw [if_neg c3']

/-- For arguments in `(1, 2]` the second wrapping step of `hue2rgb` subtracts
one. -/
theorem hue2rgb_wrap_hi (p q t : ℚ) (h1 : 1 < t) (h2 : t ≤ 2) :
    hue2rgb p q t = hue2rgb p q (t - 1) := by
  simp only [hue2rgb]
  rw [if_neg (not_lt.2 (by linarith : (0 : ℚ) ≤ t)), if_pos h1,
    if_neg (not_lt.2 (by linarith : (0 : ℚ) ≤ t - 1)),
    if_neg (not_lt.2 (by linarith : t - 1 ≤ 1))]

/-- `hue2rgb` also wraps at `t = 1` in the sense that the value there equals
the value at `0`. -/
theorem hue2rgb_wrap_one (p q t : ℚ) (h1 : 1 ≤ t) (h2 : t ≤ 2) :
    hue2rgb p q t = hue2rgb p q (t - 1) := by
  rcases eq_or_lt_of_le h1 with h | h
  · rw [← h]
    norm_num
    rw [hue2rgb_eval p q 1 (by norm_num) le_rfl, hue2rgb_eval p q 0 le_rfl (by norm_num)]
    norm_num
  · exact hue2rgb_wrap_hi p q t h h2

/-- For arguments in `[-1, 0)` the first wrapping step of `hue2rgb` adds
one. -/
theorem hue2rgb_wrap_lo (p q t : ℚ) (h1 : -1 ≤ t) (h2 : t < 0) :
    hue2rgb p q t = hue2rgb p q (t + 1) := by
  simp only [hue2rgb]
  rw [if_pos h2, if_neg (not_lt.2 (by linarith : t + 1 ≤ 1)),
    if_neg (not_lt.2 (by linarith : (0 : ℚ) ≤ t + 1)),
    if_neg (not_lt.2 (by linarith : t + 1 ≤ 1))]

/-- `hue2rgb` on the first segment `[0, 1/6]`. -/
theorem hue2rgb_seg1 (p q t : ℚ) (h0 : 0 ≤ t) (h1 : t ≤ 1 / 6) :
    hue2rgb p q t = p + (q - p) * 6 * t := by
  rw [hue2rgb_eval p q t h0 (by linarith), if_pos h1]

/-- `hue2rgb` is constantly `q` on `[1/6, 1/2]`. -/
theorem hue2rgb_eval_q (p q t : ℚ) (h0 : 1 / 6 ≤ t) (h1 : t ≤ 1 / 2) :
    hue2rgb p q t = q := by
  rw [hue2rgb_eval p q t (by linarith) (by linarith)]
  by_cases hc : t ≤ 1 / 6
  · have ht : t = 1 / 6 := le_antisymm hc h0
    rw [if_pos hc, ht]; ring
  · rw [if_neg hc, if_pos h1]

/-- `hue2rgb` on the third segment `[1/2, 2/3]`. -/
theorem hue2rgb_seg3 (p q t : ℚ) (h0 : 1 / 2 ≤ t) (h1 : t ≤ 2 / 3) :
    hue2rgb p q t = p + (q - p) * (2 / 3 - t) * 6 := by
  rw [hue2rgb_eval p q t (by linarith) (by linarith),
    if_neg (by intro h; linarith), ]
  by_cases hc : t ≤ 1 / 2
  · have ht : t = 1 / 2 := le_antisymm hc h0
    rw [if_pos hc, ht]; ring
  · rw [if_neg hc, if_pos h1]

/-- `hue2rgb` is constantly `p` on `[2/3, 1]`. -/
theorem hue2rgb_eval_p (p q t : ℚ) (h0 : 2 / 3 ≤ t) (h1 : t ≤ 1) :
    hue2rgb p q t = p := by
  rw [hue2rgb_eval p q t (by linarith) h1,
    if_neg (by intro h; linarith), if_neg (by intro h; linarith)]
  by_cases hc : t ≤ 2 / 3
  · have ht : t = 2 / 3 := le_antisymm hc h0
    rw [if_pos hc, ht]; ring
  · rw [if_neg hc]

/-- In the chromatic case, feeding the hue computed by `rgbToHsl` (together
with `p = mn` and `q = mx`) back through `hue2rgb` recovers the three
channels exactly. -/
theorem hue_reconstruct (u v w mx mn : ℚ)
    (hmx : mx = max u (max v w)) (hmn : mn = min u (min v w)) (hlt : mn < mx) :
    hue2rgb mn mx
        ((if mx = u then (v - w) / (mx - mn) + (if v < w then 6 else 0)
          else if mx = v then (w - u) / (mx - mn) + 2
          else (u - v) / (mx - mn) + 4) / 6 + 1 / 3) = u ∧
    hue2rgb mn mx
        ((if mx = u then (v - w) / (mx - mn) + (if v < w then 6 else 0)
          else if mx = v then (w - u) / (mx - mn) + 2
          else (u - v) / (mx - mn) + 4) / 6) = v ∧
    hue2rgb mn mx
        ((if mx = u then (v - w) / (mx - mn) + (if v < w then 6 else 0)
          else if mx = v then (w - u) / (mx - mn) + 2
          else (u - v) / (mx - mn) + 4) / 6 - 1 / 3) = w := by
  have hd : 0 < mx - mn := by linarith
  have hdne : mx - mn ≠ 0 := ne_of_gt hd
  have hu_le : u ≤ mx := hmx ▸ le_max_left u (max v w)
  have hv_le : v ≤ mx := hmx ▸ le_trans (le_max_left v w) (le_max_right u (max v w))
  have hw_le : w ≤ mx := hmx ▸ le_trans (le_max_right v w) (le_max_right u (max v w))
  have hmn_u : mn ≤ u := hmn ▸ min_le_left u (min v w)
  have hmn_v : mn ≤ v := hmn ▸ le_trans (min_le_right u (min v w)) (min_le_left v w)
  have hmn_w : mn ≤ w := hmn ▸ le_trans (min_le_right u (min v w)) (min_le_right v w)
  by_cases hcu : mx = u
  · rw [if_pos hcu]
    by_cases hvw : v < w
    · -- max is `r`, `g < b`: hue lands in `[5/6, 1)`
      rw [if_pos hvw]
      have hvu : v ≤ u := by rw [← hcu]; exact hv_le
      have hmnv : mn = v := by
        rw [hmn, min_eq_left (le_of_lt hvw), min_eq_right hvu]
      set K := (v - w) / (mx - mn) with hK
      have hKd : K * (mx - mn) = v - w := div_mul_cancel₀ _ hdne
      have hK0 : K < 0 := div_neg_of_neg_of_pos (by linarith) hd
      have hK1 : -1 ≤ K := by rw [le_div_iff hd]; linarith
      refine ⟨?_, ?_, ?_⟩
      · rw [hue2rgb_wrap_hi _ _ _ (by linarith) (by linarith),
          show (K + 6) / 6 + 1 / 3 - 1 = (K + 2) / 6 by ring,
          hue2rgb_eval_q _ _ _ (by linarith) (by linarith)]
        exact hcu
      · rw [hue2rgb_eval_p _ _ _ (by linarith) (by linarith)]
        exact hmnv
      · rw [hue2rgb_seg3 _ _ _ (by linarith) (by linarith),
          show mn + (mx - mn) * (2 / 3 - ((K + 6) / 6 - 1 / 3)) * 6
              = mn - K * (mx - mn) by ring, hKd]
        linarith
    · -- max is `r`, `g ≥ b`: hue lands in `[0, 1/6]`
      rw [if_neg hvw]
      have hwv : w ≤ v := not_lt.1 hvw
      have hwu : w ≤ u := by rw [← hcu]; exact hw_le
      have hmnw : mn = w := by
        rw [hmn, min_eq_right hwv, min_eq_right hwu]
      set K := (v - w) / (mx - mn) with hK
      have hKd : K * (mx - mn) = v - w := div_mul_cancel₀ _ hdne
      have hK0 : 0 ≤ K := div_nonneg (by linarith) (le_of_lt hd)
      have hK1 : K ≤ 1 := by rw [div_le_one hd]; linarith
      refine ⟨?_, ?_, ?_⟩
      · rw [hue2rgb_eval_q _ _ _ (by linarith) (by linarith)]
        exact hcu
      · rw [hue2rgb_seg1 _ _ _ (by linarith) (by linarith),
          show mn + (mx - mn) * 6 * ((K + 0) / 6) = mn + K * (mx - mn) by ring, hKd]
        linarith
      · rw [hue2rgb_wrap_lo _ _ _ (by linarith) (by linarith),
          show (K + 0) / 6 - 1 / 3 + 1 = (K + 4) / 6 by ring,
          hue2rgb_eval_p _ _ _ (by linarith) (by linarith)]
        exact hmnw
  · rw [if_neg hcu]
    by_cases hcv : mx = v
    · rw [if_pos hcv]
      by_cases huw : u ≤ w
      · -- max is `g`, `min` is `r`: hue lands in `[1/3, 1/2]`
        have hwv : w ≤ v := by rw [← hcv]; exact hw_le
        have hmnu : mn = u := by
          rw [hmn, min_eq_right hwv, min_eq_left huw]
        set K := (w - u) / (mx - mn) with hK
        have hKd : K * (mx - mn) = w - u := div_mul_cancel₀ _ hdne
        have hK0 : 0 ≤ K := div_nonneg (by linarith) (le_of_lt hd)
        have hK1 : K ≤ 1 := by rw [div_le_one hd]; linarith
        refine ⟨?_, ?_, ?_⟩
        · rw [hue2rgb_eval_p _ _ _ (by linarith) (by linarith)]
          exact hmnu
        · rw [hue2rgb_eval_q _ _ _ (by linarith) (by linarith)]
          exact hcv
        · rw [hue2rgb_seg1 _ _ _ (by linarith) (by linarith),
            show mn + (mx - mn) * 6 * ((K + 2) / 6 - 1 / 3) = mn + K * (mx - mn) by ring,
            hKd]
          linarith
      · -- max is `g`, `min` is `b`: hue lands in `[1/6, 1/3)`
        have hwu : w < u := not_le.1 huw
        have hwv : w ≤ v := by rw [← hcv]; exact hw_le
        have hmnw : mn = w := by
          rw [hmn, min_eq_right hwv, min_eq_right (le_of_lt hwu)]
        set K := (w - u) / (mx - mn) with hK
        have hKd : K * (mx - mn) = w - u := div_mul_cancel₀ _ hdne
        have hK0 : K < 0 := div_neg_of_neg_of_pos (by linarith) hd
        have hK1 : -1 ≤ K := by rw [le_div_iff hd]; linarith
        refine ⟨?_, ?_, ?_⟩
        · rw [hue2rgb_seg3 _ _ _ (by linarith) (by linarith),
            show mn + (mx - mn) * (2 / 3 - ((K + 2) / 6 + 1 / 3)) * 6
                = mn - K * (mx - mn) by ring, hKd]
          linarith
        · rw [hue2rgb_eval_q _ _ _ (by linarith) (by linarith)]
          exact hcv
        · rw [hue2rgb_wrap_lo _ _ _ (by linarith) (by linarith),
            show (K + 2) / 6 - 1 / 3 + 1 = (K + 6) / 6 by ring,
            hue2rgb_eval_p _ _ _ (by linarith) (by linarith)]
          exact hmnw
    · -- max is `b`
      rw [if_neg hcv]
      have hcw : mx = w := by
        rcases max_choice u (max v w) with h | h
        · exact absurd (hmx.trans h) hcu
        · rcases max_choice v w with h2 | h2
          · exact absurd (hmx.trans (h.trans h2)) hcv
          · exact hmx.trans (h.trans h2)
      by_cases hvu : v ≤ u
      · -- `min` is `g`: hue lands in `[2/3, 5/6]`
        have hvw2 : v ≤ w := by rw [← hcw]; exact hv_le
        have hmnv : mn = v := by
          rw [hmn, min_eq_left hvw2, min_eq_right hvu]
        set K := (u - v) / (mx - mn) with hK
        have hKd : K * (mx - mn) = u - v := div_mul_cancel₀ _ hdne
        have hK0 : 0 ≤ K := div_nonneg (by linarith) (le_of_lt hd)
        have hK1 : K ≤ 1 := by rw [div_le_one hd]; linarith
        refine ⟨?_, ?_, ?_⟩
        · rw [hue2rgb_wrap_one _ _ _ (by linarith) (by linarith),
            show (K + 4) / 6 + 1 / 3 - 1 = K / 6 by ring,
            hue2rgb_seg1 _ _ _ (by linarith) (by linarith),
            show mn + (mx - mn) * 6 * (K / 6) = mn + K * (mx - mn) by ring, hKd]
          linarith
        · rw [hue2rgb_eval_p _ _ _ (by linarith) (by linarith)]
          exact hmnv
        · rw [hue2rgb_eval_q _ _ _ (by linarith) (by linarith)]
          exact hcw
      · -- `min` is `r`: hue lands in `(1/2, 2/3)`
        have huv : u < v := not_le.1 hvu
        have hvw2 : v ≤ w := by rw [← hcw]; exact hv_le
        have hmnu : mn = u := by
          rw [hmn, min_eq_left hvw2, min_eq_left (le_of_lt huv)]
        set K := (u - v) / (mx - mn) with hK
        have hKd : K * (mx - mn) = u - v := div_mul_cancel₀ _ hdne
        have hK0 : K < 0 := div_neg_of_neg_of_pos (by linarith) hd
        have hK1 : -1 ≤ K := by rw [le_div_iff hd]; linarith
        refine ⟨?_, ?_, ?_⟩
        · rw [hue2rgb_eval_p _ _ _ (by linarith) (by linarith)]
          exact hmnu
        · rw [hue2rgb_seg3 _ _ _ (by linarith) (by linarith),
            show mn + (mx - mn) * (2 / 3 - (K + 4) / 6) * 6 = mn - K * (mx - mn) by ring,
            hKd]
          linarith
        · rw [hue2rgb_eval_q _ _ _ (by linarith) (by linarith)]
          exact hcw

/-! ### The HSL round trip is exact over the rationals -/

/-- Over exact arithmetic, `hslToRgb` inverts `rgbToHslCore` on normalized
channels in `[0, 1]`. -/
theorem hslToRgb_rgbToHslCore (u v w : ℚ)
    (hu0 : 0 ≤ u) (hu1 : u ≤ 1) (hv0 : 0 ≤ v) (hv1 : v ≤ 1)
    (hw0 : 0 ≤ w) (hw1 : w ≤ 1) :
    hslToRgb (rgbToHslCore u v w).1 (rgbToHslCore u v w).2.1
        (rgbToHslCore u v w).2.2 = (u * 255, v * 255, w * 255) := by
  simp only [rgbToHslCore]
  set mx := max u (max v w) with hmx
  set mn := min u (min v w) with hmn
  have hu_le : u ≤ mx := hmx ▸ le_max_left u (max v w)
  have hv_le : v ≤ mx := hmx ▸ le_trans (le_max_left v w) (le_max_right u (max v w))
  have hw_le : w ≤ mx := hmx ▸ le_trans (le_max_right v w) (le_max_right u (max v w))
  have hmn_u : mn ≤ u := hmn ▸ min_le_left u (min v w)
  have hmn_v : mn ≤ v := hmn ▸ le_trans (min_le_right u (min v w)) (min_le_left v w)
  have hmn_w : mn ≤ w := hmn ▸ le_trans (min_le_right u (min v w)) (min_le_right v w)
  have hmx1 : mx ≤ 1 := hmx ▸ max_le hu1 (max_le hv1 hw1)
  have hmn0 : 0 ≤ mn := hmn ▸ le_min hu0 (le_min hv0 hw0)
  by_cases hc : mx = mn
  · -- achromatic: all three channels coincide
    rw [if_pos hc]
    have hu : u = mx := le_antisymm hu_le (by rw [hc]; exact hmn_u)
    have hv : v = mx := le_antisymm hv_le (by rw [hc]; exact hmn_v)
    have hw : w = mx := le_antisymm hw_le (by rw [hc]; exact hmn_w)
    show hslToRgb 0 0 ((mx + mn) / 2) = (u * 255, v * 255, w * 255)
    simp only [hslToRgb]
    rw [if_true, Prod.mk.injEq, Prod.mk.injEq]
    refine ⟨by linarith, by linarith, by linarith⟩
  · rw [if_neg hc]
    have hlt : mn < mx := lt_of_le_of_ne (le_trans hmn_u hu_le) (Ne.symm hc)
    simp only [hslToRgb]
    set S : ℚ := if (mx + mn) / 2 > 0.5 then (mx - mn) / (2 - mx - mn)
      else (mx - mn) / (mx + mn) with hS
    have hS_pos : 0 < S := by
      rw [hS]
      split_ifs with hL
      · apply div_pos (by linarith)
        have : (0.5 : ℚ) = 1 / 2 := by norm_num
        rw [this] at hL
        linarith
      · exact div_pos (by linarith) (by linarith)
    rw [if_neg (ne_of_gt hS_pos)]
    have hQ : (if (mx + mn) / 2 < 0.5 then (mx + mn) / 2 * (1 + S)
        else (mx + mn) / 2 + S - (mx + mn) / 2 * S) = mx := by
      have h05 : (0.5 : ℚ) = 1 / 2 := by norm_num
      rw [hS, h05]
      by_cases h1 : (mx + mn) / 2 < 1 / 2
      · rw [if_pos h1, if_neg (by linarith : ¬((mx + mn) / 2 > 1 / 2))]
        have hne : mx + mn ≠ 0 := ne_of_gt (by linarith)
        field_simp
        ring
      · rw [if_neg h1]
        by_cases h2 : (mx + mn) / 2 > 1 / 2
        · rw [if_pos h2]
          have hne : 2 - mx - mn ≠ 0 := by
            have : mn < 1 := lt_of_lt_of_le hlt hmx1
            intro h; linarith
          field_simp
          ring
        · rw [if_neg h2]
          have hsum : mx + mn = 1 := by
            have ha : ¬(mx + mn) / 2 < 1 / 2 := h1
            have hb : ¬(mx + mn) / 2 > 1 / 2 := h2
            push_neg at ha hb
            linarith
          rw [hsum]
          norm_num
          linarith
    rw [hQ, show 2 * ((mx + mn) / 2) - mx = mn by ring]
    obtain ⟨e1, e2, e3⟩ := hue_reconstruct u v w mx mn hmx hmn hlt
    rw [e1, e2, e3]

/-- Over exact arithmetic, `hslToRgb ∘ rgbToHsl` is the identity on RGB
triples with channels in `[0, 255]`. -/
theorem hslToRgb_rgbToHsl (r g b : ℚ)
    (hr0 : 0 ≤ r) (hr1 : r ≤ 255) (hg0 : 0 ≤ g) (hg1 : g ≤ 255)
    (hb0 : 0 ≤ b) (hb1 : b ≤ 255) :
    hslToRgb (rgbToHsl r g b).1 (rgbToHsl r g b).2.1 (rgbToHsl r g b).2.2
      = (r, g, b) := by
  have h := hslToRgb_rgbToHslCore (r / 255) (g / 255) (b / 255)
    (by linarith) (by linarith) (by linarith) (by linarith) (by linarith) (by linarith)
  rw [rgbToHsl, h]
  norm_num

/-! ### The HSL code path of the correction pipeline -/

theorem beq_hsl_cielab : ("hsl" == "cielab") = false := rfl

/-- With the `"hsl"` selector, `applyCorrection` shifts the pixel's HSL
coordinates by the delta and converts back. -/
theorem applyCorrection_hsl (jpow : ℚ → ℚ → ℚ) (r g b : ℚ) (c : ℚ × ℚ × ℚ) :
    applyCorrection jpow r g b c "hsl" =
      hslToRgb ((rgbToHsl r g b).1 + c.1) ((rgbToHsl r g b).2.1 + c.2.1)
        ((rgbToHsl r g b).2.2 + c.2.2) := by
  simp only [applyCorrection, beq_hsl_cielab, Bool.false_eq_true, if_false]

/-- With the `"hsl"` selector, the delta is the component-wise HSL difference
target minus selected. -/
theorem colorCorrection_hsl (jpow : ℚ → ℚ → ℚ) (s t : ℚ × ℚ × ℚ) :
    colorCorrection jpow s t "hsl" =
      ((rgbToHsl t.1 t.2.1 t.2.2).1 - (rgbToHsl s.1 s.2.1 s.2.2).1,
       (rgbToHsl t.1 t.2.1 t.2.2).2.1 - (rgbToHsl s.1 s.2.1 s.2.2).2.1,
       (rgbToHsl t.1 t.2.1 t.2.2).2.2 - (rgbToHsl s.1 s.2.1 s.2.2).2.2) := by
  simp only [colorCorrection, beq_hsl_cielab, Bool.false_eq_true, if_false]

/-- In HSL mode the selected color is mapped exactly onto the target color by
the per-pixel correction. -/
theorem applyCorrection_selected (jpow : ℚ → ℚ → ℚ) (sr sg sb tr tg tb : ℚ)
    (htr0 : 0 ≤ tr) (htr1 : tr ≤ 255) (htg0 : 0 ≤ tg) (htg1 : tg ≤ 255)
    (htb0 : 0 ≤ tb) (htb1 : tb ≤ 255) :
    applyCorrection jpow sr sg sb
        (colorCorrection jpow (sr, sg, sb) (tr, tg, tb) "hsl") "hsl" =
      (tr, tg, tb) := by
  rw [applyCorrection_hsl, colorCorrection_hsl]
  dsimp only
  rw [show (rgbToHsl sr sg sb).1 + ((rgbToHsl tr tg tb).1 - (rgbToHsl sr sg sb).1)
        = (rgbToHsl tr tg tb).1 by ring,
    show (rgbToHsl sr sg sb).2.1 + ((rgbToHsl tr tg tb).2.1 - (rgbToHsl sr sg sb).2.1)
        = (rgbToHsl tr tg tb).2.1 by ring,
    show (rgbToHsl sr sg sb).2.2 + ((rgbToHsl tr tg tb).2.2 - (rgbToHsl sr sg sb).2.2)
        = (rgbToHsl tr tg tb).2.2 by ring]
  exact hslToRgb_rgbToHsl tr tg tb htr0 htr1 htg0 htg1 htb0 htb1

/-- C4: running the driver on the 1×1 RGBA buffer `(30,99,151,255)` with
selected `(30,99,151)`, target `(168,6,64)` and color space `"hsl"` turns the
pixel's RGB bytes into exactly the target color and keeps alpha at 255
(so in particular each stored byte is within ±1 of the target's channel). -/
theorem drawOutput_end_to_end (jpow : ℚ → ℚ → ℚ) :
    drawOutput jpow (30, 99, 151) (168, 6, 64) "hsl" [30, 99, 151, 255] =
      [168, 6, 64, 255] := by
  have happly : applyCorrection jpow ((30 : ℕ) : ℚ) ((99 : ℕ) : ℚ) ((151 : ℕ) : ℚ)
      (colorCorrection jpow (30, 99, 151) (168, 6, 64) "hsl") "hsl" = (168, 6, 64) := by
    push_cast
    exact applyCorrection_selected jpow 30 99 151 168 6 64 (by norm_num) (by norm_num)
      (by norm_num) (by norm_num) (by norm_num) (by norm_num)
  simp only [drawOutput, correctPixels]
  rw [if_neg (by norm_num)]
  rw [happly]
  norm_num [toByte, correctPixels]
  refine ⟨rfl, rfl, rfl⟩

/-! ### Concrete evaluation of one pixel with channel sum 746 -/

theorem rgbToHsl_sel : rgbToHsl 30 99 151 = (415 / 726, 121 / 181, 181 / 510) := by
  norm_num [rgbToHsl, rgbToHslCore, max_def, min_def]

theorem rgbToHsl_tgt : rgbToHsl 168 6 64 = (457 / 486, 27 / 29, 29 / 85) := by
  norm_num [rgbToHsl, rgbToHslCore, max_def, min_def]

theorem rgbToHsl_746 : rgbToHsl 255 255 236 = (1 / 6, 1, 491 / 510) := by
  norm_num [rgbToHsl, rgbToHslCore, max_def, min_def]

/-- With the default selected/target colors, the driver rewrites the pixel
`(255, 255, 236)` — whose channel sum is 746 — to `(226, 251, 255)`. -/
theorem drawOutput_pixel746 :
    drawOutput (fun _ _ => 0) (30, 99, 151) (168, 6, 64) "hsl" [255, 255, 236, 0] =
      [226, 251, 255, 0] := by
  have hcorr : colorCorrection (fun _ _ => 0) (30, 99, 151) (168, 6, 64) "hsl" =
      (10841 / 29403, 1378 / 5249, -7 / 510) := by
    rw [colorCorrection_hsl]
    dsimp only
    rw [rgbToHsl_sel, rgbToHsl_tgt]
    norm_num
  have happ : applyCorrection (fun _ _ => 0) ((255 : ℕ) : ℚ) ((255 : ℕ) : ℚ)
      ((236 : ℕ) : ℚ) (10841 / 29403, 1378 / 5249, -7 / 510) "hsl" =
      (1184107 / 5249, 4311925483 / 17148483, 1356409 / 5249) := by
    push_cast
    rw [applyCorrection_hsl, rgbToHsl_746]
    norm_num [hslToRgb, hue2rgb]
  simp only [drawOutput, hcorr, correctPixels]
  rw [if_neg (by norm_num)]
  rw [happ]
  norm_num [toByte, correctPixels]
  refine ⟨rfl, rfl⟩

/-! ### Structural lemmas about the pixel loop -/

/-- A byte store never exceeds 255. -/
theorem toByte_le (x : ℚ) : toByte x ≤ 255 := by
  simp only [toByte]
  split_ifs with h1 h2 h3 h4 h5
  · omega
  · omega
  all_goals
    have hf : ⌊x⌋ < 255 := by
      rw [Int.floor_lt]
      push_cast
      linarith [not_le.1 h2]
  · omega
  · omega
  · omega
  · omega

/-- Dropping one pixel's worth of bytes commutes with the pixel loop. -/
theorem correctPixels_drop4 (jp : ℚ → ℚ → ℚ) (c : ℚ × ℚ × ℚ) (s : String) :
    ∀ data : List ℕ,
      (correctPixels jp c s data).drop 4 = correctPixels jp c s (data.drop 4)
  | r :: g :: b :: a :: rest => by
      simp only [correctPixels]
      split_ifs <;> rfl
  | [] => rfl
  | [x] => rfl
  | [x, y] => rfl
  | [x, y, z] => rfl

/-- Dropping any number of whole pixels commutes with the pixel loop. -/
theorem correctPixels_drop (jp : ℚ → ℚ → ℚ) (c : ℚ × ℚ × ℚ) (s : String)
    (i : ℕ) : ∀ data : List ℕ,
    (correctPixels jp c s data).drop (4 * i) = correctPixels jp c s (data.drop (4 * i)) := by
  induction i with
  | zero => intro data; simp
  | succ i ih =>
      intro data
      rw [show 4 * (i + 1) = 4 + 4 * i by ring, ← List.drop_drop, ← List.drop_drop,
        correctPixels_drop4, ih]

/-- The pixel loop never changes an alpha byte (offset 3 inside any pixel),
whatever the correction, the color space, or the buffer. -/
theorem correctPixels_alpha (jp : ℚ → ℚ → ℚ) (c : ℚ × ℚ × ℚ) (s : String)
    (data : List ℕ) (i : ℕ) :
    (correctPixels jp c s data)[4 * i + 3]? = data[4 * i + 3]? := by
  rw [← List.getElem?_drop, ← List.getElem?_drop, correctPixels_drop]
  rcases hd : data.drop (4 * i) with _ | ⟨x0, _ | ⟨x1, _ | ⟨x2, _ | ⟨x3, tail⟩⟩⟩⟩
  · rfl
  · rfl
  · rfl
  · rfl
  · simp only [correctPixels]
    split_ifs <;> simp

/-- The pixel loop preserves well-formedness: if every input byte is at most
255, so is every output byte. -/
theorem correctPixels_mem_le (jp : ℚ → ℚ → ℚ) (c : ℚ × ℚ × ℚ) (s : String) :
    ∀ data : List ℕ, (∀ x ∈ data, x ≤ 255) →
      ∀ x ∈ correctPixels jp c s data, x ≤ 255
  | r :: g :: b :: al :: rest => by
      intro h y hy
      simp only [correctPixels, List.mem_append] at hy
      rcases hy with hy | hy
      · split_ifs at hy with hc
        · refine h y ?_
          simp only [List.mem_cons, List.not_mem_nil, or_false] at hy ⊢
          tauto
        · simp only [List.mem_cons, List.not_mem_nil, or_false] at hy
          rcases hy with rfl | rfl | rfl | rfl
          · exact toByte_le _
          · exact toByte_le _
          · exact toByte_le _
          · exact h _ (by simp)
      · exact correctPixels_mem_le jp c s rest
          (fun z hz => h z (by simp only [List.mem_cons]; tauto)) y hy
  | [] => by intro h y hy; exact h y hy
  | [x] => by intro h y hy; exact h y hy
  | [x, y] => by intro h z hz; exact h z hz
  | [x, y, z] => by intro h u hu; exact h u hu

/-! ### Claim theorems about the driver -/

/-- C1 (counterexample to the claim as stated): the pixel `(255, 255, 236)`
has channel sum 746, yet the driver modifies it — the skip threshold in the
code is `sum > 256·3 − 20 = 748`, not `sum > 765 − 20 = 745`. -/
theorem drawOutput_sum746_modified :
    255 + 255 + 236 = 746 ∧
    drawOutput (fun _ _ => 0) (30, 99, 151) (168, 6, 64) "hsl" [255, 255, 236, 0] ≠
      [255, 255, 236, 0] := by
  refine ⟨rfl, ?_⟩
  rw [drawOutput_pixel746]
  decide

/-- C1 (amended): a pixel of the buffer is left unmodified exactly when its
channel sum satisfies `sum < 20` or `sum > 748` (i.e. `256·3 − 20`);
otherwise the driver overwrites R, G, B with the corrected bytes and leaves
alpha alone. -/
theorem drawOutput_skip_characterization (jpow : ℚ → ℚ → ℚ)
    (sel tgt : ℚ × ℚ × ℚ) (space : String) (data rest : List ℕ) (i r g b a : ℕ)
    (h : data.drop (4 * i) = r :: g :: b :: a :: rest) :
    (drawOutput jpow sel tgt space data).drop (4 * i) =
      (if r + g + b < 20 ∨ r + g + b > 748 then [r, g, b, a]
       else
         [toByte (applyCorrection jpow (r : ℚ) (g : ℚ) (b : ℚ)
            (colorCorrection jpow sel tgt space) space).1,
          toByte (applyCorrection jpow (r : ℚ) (g : ℚ) (b : ℚ)
            (colorCorrection jpow sel tgt space) space).2.1,
          toByte (applyCorrection jpow (r : ℚ) (g : ℚ) (b : ℚ)
            (colorCorrection jpow sel tgt space) space).2.2,
          a]) ++ drawOutput jpow sel tgt space rest := by
  simp only [drawOutput]
  rw [correctPixels_drop, h]
  simp only [correctPixels]

theorem drawOutput_skip_characterization_witness :
    (drawOutput (fun _ _ => 0) (30, 99, 151) (168, 6, 64) "hsl" [0, 0, 3, 9]).drop (4 * 0) =
      [0, 0, 3, 9] ++ drawOutput (fun _ _ => 0) (30, 99, 151) (168, 6, 64) "hsl" [] := by
  have h := drawOutput_skip_characterization (fun _ _ => 0) (30, 99, 151) (168, 6, 64)
    "hsl" [0, 0, 3, 9] [] 0 0 0 3 9 rfl
  rw [if_pos (by norm_num)] at h
  exact h

/-- C6: for every buffer — with no condition on its pixels — the driver never
writes any alpha byte (offset 3 of every pixel), in any color space and for
any interpretation of `Math.pow`; and whenever a pixel is skipped by the
background heuristic (sum < 20 or sum > 748), all four of its bytes are
unchanged. -/
theorem drawOutput_alpha_and_skip (jpow : ℚ → ℚ → ℚ) (sel tgt : ℚ × ℚ × ℚ)
    (space : String) (data : List ℕ) :
    (∀ j : ℕ, (drawOutput jpow sel tgt space data)[4 * j + 3]? = data[4 * j + 3]?) ∧
    (∀ (i r g b a : ℕ) (rest : List ℕ),
      data.drop (4 * i) = r :: g :: b :: a :: rest →
      r + g + b < 20 ∨ r + g + b > 748 →
      (drawOutput jpow sel tgt space data).drop (4 * i) =
        r :: g :: b :: a :: drawOutput jpow sel tgt space rest) := by
  constructor
  · intro j
    exact correctPixels_alpha _ _ _ _ _
  · intro i r g b a rest h hskip
    simp only [drawOutput]
    rw [correctPixels_drop, h]
    simp only [correctPixels]
    rw [if_pos (by omega)]
    rfl

theorem drawOutput_alpha_and_skip_witness :
    ((drawOutput (fun _ _ => 0) (30, 99, 151) (168, 6, 64) "hsl"
        [100, 100, 100, 7])[4 * 0 + 3]? = [100, 100, 100, 7][4 * 0 + 3]?) ∧
    (drawOutput (fun _ _ => 0) (30, 99, 151) (168, 6, 64) "hsl" [0, 0, 3, 9]).drop (4 * 0) =
      0 :: 0 :: 3 :: 9 :: drawOutput (fun _ _ => 0) (30, 99, 151) (168, 6, 64) "hsl" [] := by
  constructor
  · exact (drawOutput_alpha_and_skip (fun _ _ => 0) (30, 99, 151) (168, 6, 64)
      "hsl" [100, 100, 100, 7]).1 0
  · exact (drawOutput_alpha_and_skip (fun _ _ => 0) (30, 99, 151) (168, 6, 64)
      "hsl" [0, 0, 3, 9]).2 0 0 0 3 9 [] rfl (by norm_num)

/-- C10: for any well-formed buffer (every byte at most 255), every byte of
the driver's output is again in `[0, 255]`, whatever color space is selected
and whatever values the per-pixel correction produces, because every stored
value passes through the clamping byte store. -/
theorem drawOutput_wellFormed (jpow : ℚ → ℚ → ℚ) (sel tgt : ℚ × ℚ × ℚ)
    (space : String) (data : List ℕ) (h : ∀ x ∈ data, x ≤ 255) :
    ∀ x ∈ drawOutput jpow sel tgt space data, x ≤ 255 :=
  correctPixels_mem_le jpow _ space data h

theorem drawOutput_wellFormed_witness :
    (∀ x ∈ ([17, 42, 99, 255] : List ℕ), x ≤ 255) ∧
    ∀ x ∈ drawOutput (fun _ _ => 0) (30, 99, 151) (168, 6, 64) "hsl"
      [17, 42, 99, 255], x ≤ 255 :=
  ⟨by decide, drawOutput_wellFormed _ _ _ _ _ (by decide)⟩

/-! ### Claim theorems about the converters -/

/-- `Math.round` of an integer-valued rational is that integer. -/
theorem jsRound_natCast (n : ℕ) : jsRound (n : ℚ) = n := by
  simp only [jsRound]
  rw [show ((n : ℚ) + 1 / 2) = ((n : ℤ) : ℚ) + 1 / 2 by push_cast; ring,
    Int.floor_int_add]
  norm_num

/-- C3: for integer RGB channels in `[0, 255]`, rounding each channel of
`hslToRgb (rgbToHsl r g b)` to the nearest integer recovers `(r, g, b)`
within ±1 per channel (in fact exactly, since the round trip is exact over
the rationals). -/
theorem hsl_roundTrip_rounded (r g b : ℕ) (hr : r ≤ 255) (hg : g ≤ 255) (hb : b ≤ 255) :
    |jsRound (hslToRgb (rgbToHsl r g b).1 (rgbToHsl r g b).2.1
        (rgbToHsl r g b).2.2).1 - (r : ℤ)| ≤ 1 ∧
    |jsRound (hslToRgb (rgbToHsl r g b).1 (rgbToHsl r g b).2.1
        (rgbToHsl r g b).2.2).2.1 - (g : ℤ)| ≤ 1 ∧
    |jsRound (hslToRgb (rgbToHsl r g b).1 (rgbToHsl r g b).2.1
        (rgbToHsl r g b).2.2).2.2 - (b : ℤ)| ≤ 1 := by
  have h := hslToRgb_rgbToHsl (r : ℚ) (g : ℚ) (b : ℚ)
    (by positivity) (by exact_mod_cast hr) (by positivity) (by exact_mod_cast hg)
    (by positivity) (by exact_mod_cast hb)
  rw [h]
  dsimp only
  rw [jsRound_natCast, jsRound_natCast, jsRound_natCast]
  norm_num

theorem hsl_roundTrip_rounded_witness :
    (5 : ℕ) ≤ 255 ∧
    (|jsRound (hslToRgb (rgbToHsl ((5 : ℕ) : ℚ) ((10 : ℕ) : ℚ) ((20 : ℕ) : ℚ)).1
        (rgbToHsl ((5 : ℕ) : ℚ) ((10 : ℕ) : ℚ) ((20 : ℕ) : ℚ)).2.1
        (rgbToHsl ((5 : ℕ) : ℚ) ((10 : ℕ) : ℚ) ((20 : ℕ) : ℚ)).2.2).1 - ((5 : ℕ) : ℤ)| ≤ 1 ∧
     |jsRound (hslToRgb (rgbToHsl ((5 : ℕ) : ℚ) ((10 : ℕ) : ℚ) ((20 : ℕ) : ℚ)).1
        (rgbToHsl ((5 : ℕ) : ℚ) ((10 : ℕ) : ℚ) ((20 : ℕ) : ℚ)).2.1
        (rgbToHsl ((5 : ℕ) : ℚ) ((10 : ℕ) : ℚ) ((20 : ℕ) : ℚ)).2.2).2.1 - ((10 : ℕ) : ℤ)| ≤ 1 ∧
     |jsRound (hslToRgb (rgbToHsl ((5 : ℕ) : ℚ) ((10 : ℕ) : ℚ) ((20 : ℕ) : ℚ)).1
        (rgbToHsl ((5 : ℕ) : ℚ) ((10 : ℕ) : ℚ) ((20 : ℕ) : ℚ)).2.1
        (rgbToHsl ((5 : ℕ) : ℚ) ((10 : ℕ) : ℚ) ((20 : ℕ) : ℚ)).2.2).2.2 - ((20 : ℕ) : ℤ)| ≤ 1) :=
  ⟨by norm_num, hsl_roundTrip_rounded 5 10 20 (by norm_num) (by norm_num) (by norm_num)⟩

/-- The final round-and-clamp step of `labToRgb` always lands in `[0, 255]`. -/
theorem jsRound_clamp_range (x : ℚ) :
    0 ≤ jsRound (max 0 (min 1 x) * 255) ∧ jsRound (max 0 (min 1 x) * 255) ≤ 255 := by
  have h0 : 0 ≤ max 0 (min 1 x) := le_max_left 0 _
  have h1 : max 0 (min 1 x) ≤ 1 := max_le (by norm_num) (min_le_left 1 x)
  constructor
  · simp only [jsRound]
    rw [Int.le_floor]
    push_cast
    nlinarith
  · simp only [jsRound]
    have h2 : ⌊max 0 (min 1 x) * 255 + 1 / 2⌋ < 256 := by
      rw [Int.floor_lt]
      push_cast
      nlinarith
    omega

/-- C7: every channel of `labToRgb` is an integer in `[0, 255]` — the
codomain is `ℤ` because the inverse converter rounds, and the clamp bounds
hold for every Lab input and every interpretation of `Math.pow`. -/
theorem labToRgb_range (jpow : ℚ → ℚ → ℚ) (cl ca cb : ℚ) :
    0 ≤ (labToRgb jpow cl ca cb).1 ∧ (labToRgb jpow cl ca cb).1 ≤ 255 ∧
    0 ≤ (labToRgb jpow cl ca cb).2.1 ∧ (labToRgb jpow cl ca cb).2.1 ≤ 255 ∧
    0 ≤ (labToRgb jpow cl ca cb).2.2 ∧ (labToRgb jpow cl ca cb).2.2 ≤ 255 := by
  simp only [labToRgb]
  exact ⟨(jsRound_clamp_range _).1, (jsRound_clamp_range _).2,
    (jsRound_clamp_range _).1, (jsRound_clamp_range _).2,
    (jsRound_clamp_range _).1, (jsRound_clamp_range _).2⟩

/-- C9: `rgbToHsl (128,128,128)` has hue 0 and saturation 0, and for zero
saturation `hslToRgb` returns the achromatic triple `(255l, 255l, 255l)`
independently of the hue. -/
theorem achromatic_fixed_point :
    (rgbToHsl 128 128 128).1 = 0 ∧ (rgbToHsl 128 128 128).2.1 = 0 ∧
    ∀ h l : ℚ, hslToRgb h 0 l = (l * 255, l * 255, l * 255) := by
  refine ⟨?_, ?_, ?_⟩
  · simp [rgbToHsl, rgbToHslCore]
  · simp [rgbToHsl, rgbToHslCore]
  · intro h l
    simp [hslToRgb]

/-! ### Zero-delta identities (partial results toward the delta claim) -/

/-- In both color spaces — indeed for any selector string and any
interpretation of `Math.pow` — the delta between a color and itself is the
zero vector. -/
theorem colorCorrection_self (jpow : ℚ → ℚ → ℚ) (c : ℚ × ℚ × ℚ) (space : String) :
    colorCorrection jpow c c space = (0, 0, 0) := by
  simp [colorCorrection]

/-- In HSL mode the zero delta makes `applyCorrection` the exact identity on
every in-range pixel. -/
theorem applyCorrection_zero_hsl (jpow : ℚ → ℚ → ℚ) (r g b : ℚ)
    (hr0 : 0 ≤ r) (hr1 : r ≤ 255) (hg0 : 0 ≤ g) (hg1 : g ≤ 255)
    (hb0 : 0 ≤ b) (hb1 : b ≤ 255) :
    applyCorrection jpow r g b (0, 0, 0) "hsl" = (r, g, b) := by
  rw [applyCorrection_hsl]
  dsimp only
  rw [add_zero, add_zero, add_zero]
  exact hslToRgb_rgbToHsl r g b hr0 hr1 hg0 hg1 hb0 hb1

/-! ### Output ranges of `rgbToHsl` -/

/-- On normalized channels in `[0, 1]`, all three components produced by the
body of `rgbToHsl` lie in `[0, 1]`. -/
theorem rgbToHslCore_range (u v w : ℚ)
    (hu0 : 0 ≤ u) (hu1 : u ≤ 1) (hv0 : 0 ≤ v) (hv1 : v ≤ 1)
    (hw0 : 0 ≤ w) (hw1 : w ≤ 1) :
    0 ≤ (rgbToHslCore u v w).1 ∧ (rgbToHslCore u v w).1 ≤ 1 ∧
    0 ≤ (rgbToHslCore u v w).2.1 ∧ (rgbToHslCore u v w).2.1 ≤ 1 ∧
    0 ≤ (rgbToHslCore u v w).2.2 ∧ (rgbToHslCore u v w).2.2 ≤ 1 := by
  simp only [rgbToHslCore]
  set mx := max u (max v w) with hmx
  set mn := min u (min v w) with hmn
  have hu_le : u ≤ mx := hmx ▸ le_max_left u (max v w)
  have hv_le : v ≤ mx := hmx ▸ le_trans (le_max_left v w) (le_max_right u (max v w))
  have hw_le : w ≤ mx := hmx ▸ le_trans (le_max_right v w) (le_max_right u (max v w))
  have hmn_u : mn ≤ u := hmn ▸ min_le_left u (min v w)
  have hmn_v : mn ≤ v := hmn ▸ le_trans (min_le_right u (min v w)) (min_le_left v w)
  have hmn_w : mn ≤ w := hmn ▸ le_trans (min_le_right u (min v w)) (min_le_right v w)
  have hmx1 : mx ≤ 1 := hmx ▸ max_le hu1 (max_le hv1 hw1)
  have hmn0 : 0 ≤ mn := hmn ▸ le_min hu0 (le_min hv0 hw0)
  by_cases hc : mx = mn
  · rw [if_pos hc]
    refine ⟨le_rfl, by norm_num, le_rfl, by norm_num, by dsimp only; linarith,
      by dsimp only; linarith⟩
  · rw [if_neg hc]
    have hlt : mn < mx := lt_of_le_of_ne (le_trans hmn_u hu_le) (Ne.symm hc)
    have hd : 0 < mx - mn := by linarith
    have hH : 0 ≤ (if mx = u then (v - w) / (mx - mn) + (if v < w then 6 else 0)
          else if mx = v then (w - u) / (mx - mn) + 2
          else (u - v) / (mx - mn) + 4) ∧
        (if mx = u then (v - w) / (mx - mn) + (if v < w then 6 else 0)
          else if mx = v then (w - u) / (mx - mn) + 2
          else (u - v) / (mx - mn) + 4) ≤ 6 := by
      by_cases hcu : mx = u
      · rw [if_pos hcu]
        have hb0 : -1 ≤ (v - w) / (mx - mn) := by
          rw [le_div_iff hd]; linarith
        have hb1 : (v - w) / (mx - mn) ≤ 1 := by
          rw [div_le_iff hd]; linarith
        by_cases hvw : v < w
        · rw [if_pos hvw]
          have : (v - w) / (mx - mn) < 0 := div_neg_of_neg_of_pos (by linarith) hd
          constructor <;> linarith
        · rw [if_neg hvw]
          have : 0 ≤ (v - w) / (mx - mn) :=
            div_nonneg (by linarith [not_lt.1 hvw]) (le_of_lt hd)
          constructor <;> linarith
      · rw [if_neg hcu]
        by_cases hcv : mx = v
        · rw [if_pos hcv]
          have hb0 : -1 ≤ (w - u) / (mx - mn) := by
            rw [le_div_iff hd]; linarith
          have hb1 : (w - u) / (mx - mn) ≤ 1 := by
            rw [div_le_iff hd]; linarith
          constructor <;> linarith
        · rw [if_neg hcv]
          have hb0 : -1 ≤ (u - v) / (mx - mn) := by
            rw [le_div_iff hd]; linarith
          have hb1 : (u - v) / (mx - mn) ≤ 1 := by
            rw [div_le_iff hd]; linarith
          constructor <;> linarith
    have hS : 0 ≤ (if (mx + mn) / 2 > 0.5 then (mx - mn) / (2 - mx - mn)
          else (mx - mn) / (mx + mn)) ∧
        (if (mx + mn) / 2 > 0.5 then (mx - mn) / (2 - mx - mn)
          else (mx - mn) / (mx + mn)) ≤ 1 := by
      have h05 : (0.5 : ℚ) = 1 / 2 := by norm_num
      rw [h05]
      by_cases hL : (mx + mn) / 2 > 1 / 2
      · rw [if_pos hL]
        have hden : 0 < 2 - mx - mn := by linarith
        constructor
        · exact div_nonneg (by linarith) (le_of_lt hden)
        · rw [div_le_one hden]; linarith
      · rw [if_neg hL]
        have hden : 0 < mx + mn := by
          have : 0 < mx := lt_of_le_of_lt hmn0 hlt
          linarith
        constructor
        · exact div_nonneg (by linarith) (le_of_lt hden)
        · rw [div_le_one hden]; linarith
    refine ⟨by dsimp only; linarith [hH.1], ?_, by dsimp only; exact hS.1,
      by dsimp only; exact hS.2, by dsimp only; linarith, by dsimp only; linarith⟩
    dsimp only
    rw [div_le_one (by norm_num : (0 : ℚ) < 6)]
    linarith [hH.2]

/-- C8: for RGB channels in `[0, 255]`, all three components of `rgbToHsl`
lie in `[0, 1]`. -/
theorem rgbToHsl_range (r g b : ℚ)
    (hr0 : 0 ≤ r) (hr1 : r ≤ 255) (hg0 : 0 ≤ g) (hg1 : g ≤ 255)
    (hb0 : 0 ≤ b) (hb1 : b ≤ 255) :
    0 ≤ (rgbToHsl r g b).1 ∧ (rgbToHsl r g b).1 ≤ 1 ∧
    0 ≤ (rgbToHsl r g b).2.1 ∧ (rgbToHsl r g b).2.1 ≤ 1 ∧
    0 ≤ (rgbToHsl r g b).2.2 ∧ (rgbToHsl r g b).2.2 ≤ 1 := by
  simp only [rgbToHsl]
  exact rgbToHslCore_range (r / 255) (g / 255) (b / 255)
    (by linarith) (by linarith) (by linarith) (by linarith) (by linarith) (by linarith)

theorem rgbToHsl_range_witness :
    (0 : ℚ) ≤ 30 ∧
    (0 ≤ (rgbToHsl 30 99 151).1 ∧ (rgbToHsl 30 99 151).1 ≤ 1 ∧
     0 ≤ (rgbToHsl 30 99 151).2.1 ∧ (rgbToHsl 30 99 151).2.1 ≤ 1 ∧
     0 ≤ (rgbToHsl 30 99 151).2.2 ∧ (rgbToHsl 30 99 151).2.2 ≤ 1) :=
  ⟨by norm_num, rgbToHsl_range 30 99 151 (by norm_num) (by norm_num) (by norm_num)
    (by norm_num) (by norm_num) (by norm_num)⟩

end ImageRecolor
